import Mathlib

/-!
Shallow embedding of the metric scripts (src/script/metrics/*.py):
sample filtering, pivot-table alignment with duplicate aggregation and
forward fill, windowed rate derivation, and row dropping.
-/

/-- One row of the input CSV after timestamp parsing: `pd.to_datetime(..., errors="coerce")`
turns an unparseable `time` into `NaT`, modelled as `none`; the timestamp itself is the
instant measured in seconds as a rational. -/
structure Sample where
  time : Option ℚ
  name : String
  label : String
  value : ℚ
deriving DecidableEq

/-- The two duplicate-aggregation rules the scripts pass to `pivot_table` (`aggfunc`). -/
inductive AggFunc
  | last
  | mean
deriving DecidableEq

/-- `pivot_table` aggregation of the values of one `(time, label)` group, in input order:
`last` takes the final value, `mean` the arithmetic mean; an empty group is a missing
cell (`NaN`). -/
def aggApply : AggFunc → List ℚ → Option ℚ
  | .last, vs => vs.getLast?
  | .mean, vs => if vs.isEmpty then none else some (vs.sum / vs.length)

/-- Rows that survive into the pivot: grouping by `time` silently drops `NaT` keys, so a
row contributes `(timestamp, label, value)` only when its time parsed. -/
def validRows (rows : List Sample) : List (ℚ × String × ℚ) :=
  rows.filterMap (fun r => r.time.map (fun t => (t, r.label, r.value)))

/-- The pivot's column set: the labels occurring among rows with a parseable time. -/
def labelsOf (rows : List Sample) : List String :=
  ((validRows rows).map (fun p => p.2.1)).dedup

/-- The pivot's row index: distinct parseable timestamps, sorted ascending
(`pivot_table` sorts group keys; `sort_index` keeps this). -/
def timesOf (rows : List Sample) : List ℚ :=
  (((validRows rows).map (fun p => p.1)).dedup).insertionSort (· ≤ ·)

/-- The pivot cell before forward fill: aggregate of the values at exactly
`(t, l)`, in input order. -/
def cellRaw (rows : List Sample) (agg : AggFunc) (t : ℚ) (l : String) : Option ℚ :=
  aggApply agg
    (((validRows rows).filter (fun p => p.1 = t ∧ p.2.1 = l)).map (fun p => p.2.2))

/-- The pivot cell after `ffill`: the raw value at the greatest index timestamp `u ≤ t`
whose raw cell is present; cells before a label's first observation stay missing. -/
def ffillCell (rows : List Sample) (agg : AggFunc) (t : ℚ) (l : String) : Option ℚ :=
  (((timesOf rows).filter (fun u => u ≤ t)).reverse).findSome?
    (fun u => cellRaw rows agg u l)

/-- One cell of `diff(periods=w)` divided by the timestamp difference in seconds: missing
(`NaN`) when the row is in the first `w` rows or either endpoint cell is missing.  A zero
time delta only arises when `w = 0`, where the numerator is also `0` and pandas' `0/0`
is `NaN`, hence `none`. -/
def rateCell (rows : List Sample) (agg : AggFunc) (w : ℕ) (i : ℕ) (l : String) : Option ℚ :=
  let ts := timesOf rows
  if w ≤ i ∧ i < ts.length then
    match ffillCell rows agg (ts.getD i 0) l, ffillCell rows agg (ts.getD (i - w) 0) l with
    | some a, some b =>
        if ts.getD i 0 - ts.getD (i - w) 0 = 0 then none
        else some ((a - b) / (ts.getD i 0 - ts.getD (i - w) 0))
    | _, _ => none
  else none

/-- The row indices that survive `dropna()` on the rate table: a row is kept only when
every column's cell is present (`how="any"` row-wise semantics). -/
def keptIndices (rows : List Sample) (agg : AggFunc) (w : ℕ) : List ℕ :=
  (List.range (timesOf rows).length).filter
    (fun i => (labelsOf rows).all (fun l => (rateCell rows agg w i l).isSome))

/-- A small two-label cumulative family: label `"a"` sampled at every tick, label `"b"`
only at ticks 0 and 2; both strictly linear with slope 1. -/
def exS : List Sample :=
  [⟨some 0, "m", "a", 0⟩, ⟨some 1, "m", "a", 1⟩, ⟨some 2, "m", "a", 2⟩,
   ⟨some 0, "m", "b", 0⟩, ⟨some 2, "m", "b", 2⟩]

theorem exS_times : timesOf exS = [0, 1, 2] := by
  norm_num [timesOf, validRows, exS, List.filterMap, List.dedup, List.insertionSort,
    List.orderedInsert]

theorem exS_kept : keptIndices exS .last 1 = [1, 2] := by
  norm_num +decide [keptIndices, timesOf, labelsOf, validRows, exS, List.filterMap, List.dedup,
    List.insertionSort, List.orderedInsert, List.range, List.range.loop, List.filter,
    List.all, rateCell, ffillCell, cellRaw, aggApply, List.findSome?]

theorem exS_rate2b : rateCell exS .last 1 2 "b" = some 2 := by
  norm_num +decide [rateCell, ffillCell, cellRaw, aggApply, timesOf, labelsOf, validRows, exS,
    List.filterMap, List.dedup, List.insertionSort, List.orderedInsert, List.filter,
    List.findSome?]

/-! ### Per-script instantiations -/

/-- `df[df["name"] == n]`: keep the rows of one metric family. -/
def filterName (n : String) (rows : List Sample) : List Sample :=
  rows.filter (fun r => r.name = n)

/-- The explicit label allow-list of `cpu_all.py` (`valid_labels`). -/
def cpuAllValidLabels : List String :=
  ["user", "system", "idle", "iowait", "irq", "nice", "softirq", "steal"]

/-- `cpu_all.py`: rows named `"cpu_all"` whose label is in the allow-list. -/
def filterCpuAll (rows : List Sample) : List Sample :=
  (filterName "cpu_all" rows).filter (fun r => r.label ∈ cpuAllValidLabels)

/-- The label allow-list of `backend_duration.py`. -/
def durationValidLabels : List String := ["get", "put", "close"]

/-- `backend_duration.py`: rows named `"backend_duration"` with an allowed label. -/
def filterDuration (rows : List Sample) : List Sample :=
  (filterName "backend_duration" rows).filter (fun r => r.label ∈ durationValidLabels)

/-- `cpu_self.py` builds its pivot with `aggfunc="last"` and derives a rate with
`periods=10`; there is no emptiness check, so the script always proceeds to a
(possibly empty) rate table, modelled as the list of surviving row indices. -/
def cpuSelfRun (rows : List Sample) : Except String (List ℕ) :=
  .ok (keptIndices (filterName "cpu_self" rows) .last 10)

/-- `cpu_all.py`: after filtering it checks `df_cpu_all.empty` and exits with code 1 and
an error message before building the `aggfunc="mean"` pivot and the `periods=10` rate. -/
def cpuAllRun (rows : List Sample) : Except String (List ℕ) :=
  if (filterCpuAll rows).isEmpty then .error "Error: Input DataFrame is empty"
  else .ok (keptIndices (filterCpuAll rows) .mean 10)

/-- `network.py` has no emptiness check; both the rx and the tx pivots use
`aggfunc="last"` and `periods=10`. -/
def networkRun (rows : List Sample) : Except String (List ℕ × List ℕ) :=
  .ok (keptIndices (filterName "network_rx" rows) .last 10,
       keptIndices (filterName "network_tx" rows) .last 10)

/-- `backend_duration.py`: checks `df_duration.empty` and exits with code 1 before the
`aggfunc="mean"` pivot; the duration table is instantaneous (no rate derivation), so the
run is modelled by its aligned row index. -/
def durationRun (rows : List Sample) : Except String (List ℚ) :=
  if (filterDuration rows).isEmpty then .error "Error: Input DataFrame is empty"
  else .ok (timesOf (filterDuration rows))

/-- The §8 scenario: one label `"user"`, cumulative CPU seconds `0,1,...,20`
at one-second ticks, for `cpu_self`. -/
def ex21 : List Sample :=
  (List.range 21).map (fun i => ⟨some i, "cpu_self", "user", i⟩)

theorem ex21_kept : keptIndices (filterName "cpu_self" ex21) .last 10 =
    [10, 11, 12, 13, 14, 15, 16, 17, 18, 19, 20] := by
  norm_num +decide [keptIndices, timesOf, labelsOf, validRows, ex21, filterName,
    List.filterMap, List.dedup, List.insertionSort, List.orderedInsert, List.range,
    List.range.loop, List.filter, List.all, rateCell, ffillCell, cellRaw, aggApply,
    List.findSome?]

/-! ### General lemmas about the aligner -/

theorem timesOf_sorted_le (rows : List Sample) : (timesOf rows).Sorted (· ≤ ·) :=
  List.sorted_insertionSort _ _

theorem timesOf_nodup (rows : List Sample) : (timesOf rows).Nodup :=
  ((List.perm_insertionSort _ _).symm).nodup (List.nodup_dedup _)

theorem timesOf_sorted (rows : List Sample) : (timesOf rows).Sorted (· < ·) :=
  (timesOf_sorted_le rows).lt_of_le (timesOf_nodup rows)

theorem mem_timesOf {t : ℚ} {rows : List Sample} :
    t ∈ timesOf rows ↔ ∃ p ∈ validRows rows, p.1 = t := by
  unfold timesOf
  rw [(List.perm_insertionSort _ _).mem_iff, List.mem_dedup, List.mem_map]

theorem mem_labelsOf {l : String} {rows : List Sample} :
    l ∈ labelsOf rows ↔ ∃ p ∈ validRows rows, p.2.1 = l := by
  unfold labelsOf
  rw [List.mem_dedup, List.mem_map]

theorem getD_mem_of_lt {l : List ℚ} {m : ℕ} (hm : m < l.length) : l.getD m 0 ∈ l := by
  rw [List.getD_eq_getElem?_getD, List.getElem?_eq_getElem hm, Option.getD_some]
  exact List.getElem_mem _

theorem timesOf_getD_lt (rows : List Sample) {i j : ℕ} (hij : i < j)
    (hj : j < (timesOf rows).length) :
    (timesOf rows).getD i 0 < (timesOf rows).getD j 0 := by
  have hi : i < (timesOf rows).length := lt_trans hij hj
  rw [List.getD_eq_getElem?_getD, List.getD_eq_getElem?_getD,
    List.getElem?_eq_getElem hi, List.getElem?_eq_getElem hj, Option.getD_some, Option.getD_some]
  have h := (timesOf_sorted rows).rel_get_of_lt (a := ⟨i, hi⟩) (b := ⟨j, hj⟩) hij
  simpa using h

theorem sorted_filter_le_take {l : List ℚ} (hs : l.Sorted (· < ·)) :
    ∀ {m : ℕ}, m < l.length → l.filter (fun u => u ≤ l.getD m 0) = l.take (m + 1) := by
  induction l with
  | nil => intro m hm; simp at hm
  | cons a tl ih =>
    intro m hm
    rcases List.sorted_cons.mp hs with ⟨ha, hs'⟩
    cases m with
    | zero =>
      rw [List.getD_cons_zero, List.take_succ_cons, List.take_zero,
        List.filter_cons_of_pos (by simp)]
      congr 1
      rw [List.filter_eq_nil_iff]
      intro x hx
      simpa using not_le.mpr (ha x hx)
    | succ m =>
      have hm' : m < tl.length := by simpa using hm
      have hale : a ≤ tl.getD m 0 := le_of_lt (ha _ (getD_mem_of_lt hm'))
      rw [List.getD_cons_succ, List.take_succ_cons,
        List.filter_cons_of_pos (by simpa using hale), ih hs' hm']

theorem mem_keptIndices {rows : List Sample} {agg : AggFunc} {w i : ℕ} :
    i ∈ keptIndices rows agg w ↔
      i < (timesOf rows).length ∧ ∀ l ∈ labelsOf rows, (rateCell rows agg w i l).isSome := by
  simp [keptIndices, List.mem_filter, List.mem_range, List.all_eq_true]

theorem labelsOf_exists_of_lt_length {rows : List Sample} {i : ℕ}
    (hi : i < (timesOf rows).length) : ∃ l, l ∈ labelsOf rows := by
  have hne : timesOf rows ≠ [] := by
    intro h
    rw [h] at hi
    simp at hi
  obtain ⟨t, ht⟩ := List.exists_mem_of_ne_nil _ hne
  obtain ⟨p, hp, -⟩ := mem_timesOf.mp ht
  exact ⟨p.2.1, mem_labelsOf.mpr ⟨p, hp, rfl⟩⟩

theorem rateCell_isSome_elim {rows : List Sample} {agg : AggFunc} {w i : ℕ} {l : String}
    (h : (rateCell rows agg w i l).isSome) :
    w ≤ i ∧ i < (timesOf rows).length ∧
      (timesOf rows).getD i 0 - (timesOf rows).getD (i - w) 0 ≠ 0 := by
  unfold rateCell at h
  by_cases hc : w ≤ i ∧ i < (timesOf rows).length
  · refine ⟨hc.1, hc.2, ?_⟩
    rw [if_pos hc] at h
    rcases hfi : ffillCell rows agg ((timesOf rows).getD i 0) l with _ | a <;>
      rcases hfw : ffillCell rows agg ((timesOf rows).getD (i - w) 0) l with _ | b <;>
        rw [hfi, hfw] at h <;> simp only [Option.isSome] at h
    · exact absurd h (by simp)
    · exact absurd h (by simp)
    · exact absurd h (by simp)
    · by_cases hdt : (timesOf rows).getD i 0 - (timesOf rows).getD (i - w) 0 = 0
      · rw [if_pos hdt] at h
        exact absurd h (by simp)
      · exact hdt
  · rw [if_neg hc] at h
    exact absurd h (by simp)

theorem ffillCell_isSome_iff {rows : List Sample} {agg : AggFunc} {t : ℚ} {l : String} :
    (ffillCell rows agg t l).isSome ↔
      ∃ u ∈ timesOf rows, u ≤ t ∧ (cellRaw rows agg u l).isSome := by
  unfold ffillCell
  rw [Option.isSome_iff_ne_none, Ne, List.findSome?_eq_none_iff]
  push_neg
  constructor
  · rintro ⟨u, hu, hne⟩
    rw [List.mem_reverse, List.mem_filter] at hu
    exact ⟨u, hu.1, by simpa using hu.2, Option.isSome_iff_ne_none.mpr hne⟩
  · rintro ⟨u, hu, hle, hsome⟩
    refine ⟨u, ?_, Option.isSome_iff_ne_none.mp hsome⟩
    rw [List.mem_reverse, List.mem_filter]
    exact ⟨hu, by simpa using hle⟩

theorem ffillCell_getD_eq_none {rows : List Sample} {agg : AggFunc} {l : String} {m : ℕ}
    (hm : m < (timesOf rows).length)
    (h : ∀ j, j ≤ m → cellRaw rows agg ((timesOf rows).getD j 0) l = none) :
    ffillCell rows agg ((timesOf rows).getD m 0) l = none := by
  unfold ffillCell
  rw [sorted_filter_le_take (timesOf_sorted rows) hm, List.findSome?_eq_none_iff]
  intro x hx
  rw [List.mem_reverse, List.mem_take_iff_getElem] at hx
  obtain ⟨j, hj, hx⟩ := hx
  have hjm : j ≤ m := Nat.lt_succ_iff.mp (lt_of_lt_of_le hj (min_le_left _ _))
  have hjl : j < (timesOf rows).length := lt_of_lt_of_le hj (min_le_right _ _)
  have hc := h j hjm
  rw [List.getD_eq_getElem?_getD, List.getElem?_eq_getElem hjl, Option.getD_some, hx] at hc
  exact hc

theorem ffillCell_getD_eq_cellRaw {rows : List Sample} {agg : AggFunc} {l : String} {m : ℕ}
    (hm : m < (timesOf rows).length) :
    (cellRaw rows agg ((timesOf rows).getD m 0) l).isSome →
    ffillCell rows agg ((timesOf rows).getD m 0) l
      = cellRaw rows agg ((timesOf rows).getD m 0) l := by
  intro h
  unfold ffillCell
  rw [sorted_filter_le_take (timesOf_sorted rows) hm, List.take_succ,
    List.getElem?_eq_getElem hm, Option.toList_some, List.reverse_append]
  have hgd : (timesOf rows).getD m 0 = (timesOf rows)[m] := by
    rw [List.getD_eq_getElem?_getD, List.getElem?_eq_getElem hm, Option.getD_some]
  obtain ⟨v, hv⟩ := Option.isSome_iff_exists.mp h
  rw [hgd] at hv ⊢
  simp only [List.reverse_cons, List.reverse_nil, List.nil_append, List.cons_append,
    List.findSome?_cons, hv]

/-! ### Shifting every timestamp by a constant offset -/

/-- Every timestamp shifted by the constant offset `c`; unparseable times stay
unparseable. -/
def shiftRows (c : ℚ) (rows : List Sample) : List Sample :=
  rows.map (fun r => { r with time := r.time.map (fun t => t + c) })

theorem validRows_shiftRows (c : ℚ) (rows : List Sample) :
    validRows (shiftRows c rows) = (validRows rows).map (fun p => (p.1 + c, p.2)) := by
  induction rows with
  | nil => rfl
  | cons r rs ih =>
    cases h : r.time <;>
      simp only [validRows, shiftRows, List.map_cons, List.filterMap_cons, h,
        Option.map_none, Option.map_some] at ih ⊢ <;>
      simp [ih]

theorem dedup_map_add (c : ℚ) (l : List ℚ) :
    (l.map (fun t => t + c)).dedup = l.dedup.map (fun t => t + c) := by
  induction l with
  | nil => rfl
  | cons a tl ih =>
    by_cases h : a ∈ tl
    · have hmm : a + c ∈ List.map (fun t => t + c) tl := List.mem_map.mpr ⟨a, h, rfl⟩
      rw [List.map_cons, List.dedup_cons_of_mem hmm, List.dedup_cons_of_mem h, ih]
    · have hnm : (a + c) ∉ List.map (fun t => t + c) tl := by
        intro hc
        rw [List.mem_map] at hc
        obtain ⟨b, hb, hbc⟩ := hc
        have hba : b = a := (add_left_inj c).mp hbc
        exact h (hba ▸ hb)
      rw [List.map_cons, List.dedup_cons_of_not_mem hnm, List.dedup_cons_of_not_mem h, ih,
        List.map_cons]

theorem timesOf_shiftRows (c : ℚ) (rows : List Sample) :
    timesOf (shiftRows c rows) = (timesOf rows).map (fun t => t + c) := by
  refine List.eq_of_perm_of_sorted ?_ (timesOf_sorted_le _) ?_
  · unfold timesOf
    rw [validRows_shiftRows, List.map_map]
    have h1 : ((fun p : ℚ × String × ℚ => p.1) ∘ fun p : ℚ × String × ℚ => (p.1 + c, p.2))
        = (fun t => t + c) ∘ (fun p : ℚ × String × ℚ => p.1) := rfl
    rw [h1, ← List.map_map, dedup_map_add]
    have p1 : ((((validRows rows).map (fun p => p.1)).dedup.map
          (fun t => t + c)).insertionSort (· ≤ ·)).Perm
        (((validRows rows).map (fun p => p.1)).dedup.map (fun t => t + c)) :=
      List.perm_insertionSort _ _
    have p2 : ((((validRows rows).map (fun p => p.1)).dedup.map (fun t => t + c))).Perm
        ((((validRows rows).map (fun p => p.1)).dedup.insertionSort (· ≤ ·)).map
          (fun t => t + c)) :=
      ((List.perm_insertionSort _ _).symm).map (fun t => t + c)
    exact p1.trans p2
  · have hs := timesOf_sorted_le rows
    exact List.Pairwise.map (fun t => t + c) (fun a b hab => add_le_add_right hab c) hs

theorem labelsOf_shiftRows (c : ℚ) (rows : List Sample) :
    labelsOf (shiftRows c rows) = labelsOf rows := by
  unfold labelsOf
  rw [validRows_shiftRows, List.map_map]
  rfl

theorem cellRaw_shiftRows (c : ℚ) (rows : List Sample) (agg : AggFunc) (t : ℚ) (l : String) :
    cellRaw (shiftRows c rows) agg (t + c) l = cellRaw rows agg t l := by
  unfold cellRaw
  rw [validRows_shiftRows, List.filter_map]
  congr 1
  rw [List.map_map]
  have hcond : ∀ p ∈ validRows rows,
      ((fun p : ℚ × String × ℚ => decide (p.1 = t + c ∧ p.2.1 = l)) ∘
        (fun p : ℚ × String × ℚ => (p.1 + c, p.2))) p
        = (fun p : ℚ × String × ℚ => decide (p.1 = t ∧ p.2.1 = l)) p := by
    intro p _
    simp [Function.comp, add_left_inj]
  rw [List.filter_congr hcond]
  rfl

theorem ffillCell_shiftRows (c : ℚ) (rows : List Sample) (agg : AggFunc) (t : ℚ) (l : String) :
    ffillCell (shiftRows c rows) agg (t + c) l = ffillCell rows agg t l := by
  unfold ffillCell
  rw [timesOf_shiftRows, List.filter_map]
  have hcond : ∀ u ∈ timesOf rows,
      ((fun u : ℚ => decide (u ≤ t + c)) ∘ (fun u : ℚ => u + c)) u
        = (fun u : ℚ => decide (u ≤ t)) u := by
    intro u _
    simp [Function.comp]
  rw [List.filter_congr hcond, ← List.map_reverse, List.findSome?_map]
  have hfun : ((fun u => cellRaw (shiftRows c rows) agg u l) ∘ (fun u : ℚ => u + c))
      = fun u => cellRaw rows agg u l :=
    funext (fun u => cellRaw_shiftRows c rows agg u l)
  rw [hfun]

theorem getD_map_add {l : List ℚ} {c : ℚ} {i : ℕ} (hi : i < l.length) :
    (l.map (fun t => t + c)).getD i 0 = l.getD i 0 + c := by
  rw [List.getD_eq_getElem?_getD, List.getD_eq_getElem?_getD, List.getElem?_map,
    List.getElem?_eq_getElem hi]
  simp

theorem rateCell_shiftRows (c : ℚ) (rows : List Sample) (agg : AggFunc) (w i : ℕ)
    (l : String) :
    rateCell (shiftRows c rows) agg w i l = rateCell rows agg w i l := by
  unfold rateCell
  rw [timesOf_shiftRows]
  simp only [List.length_map]
  by_cases h : w ≤ i ∧ i < (timesOf rows).length
  · have hiw : i - w < (timesOf rows).length := lt_of_le_of_lt (Nat.sub_le i w) h.2
    rw [if_pos h, if_pos h, getD_map_add h.2, getD_map_add hiw,
      ffillCell_shiftRows, ffillCell_shiftRows]
    have hdt : (timesOf rows).getD i 0 + c - ((timesOf rows).getD (i - w) 0 + c)
        = (timesOf rows).getD i 0 - (timesOf rows).getD (i - w) 0 := by ring
    rw [hdt]
  · rw [if_neg h, if_neg h]

theorem keptIndices_shiftRows (c : ℚ) (rows : List Sample) (agg : AggFunc) (w : ℕ) :
    keptIndices (shiftRows c rows) agg w = keptIndices rows agg w := by
  unfold keptIndices
  rw [timesOf_shiftRows, List.length_map, labelsOf_shiftRows]
  simp only [rateCell_shiftRows]

/-! ### Unparseable timestamps -/

/-- Removing the rows whose `time` failed to parse (`NaT`), as the input contract
requires before filtering. -/
def dropUnparseable (rows : List Sample) : List Sample :=
  rows.filter (fun r => r.time.isSome)

theorem validRows_dropUnparseable (rows : List Sample) :
    validRows (dropUnparseable rows) = validRows rows := by
  induction rows with
  | nil => rfl
  | cons r rs ih =>
    cases h : r.time <;>
      simp only [validRows, dropUnparseable, List.filter_cons, h, Option.isSome,
        List.filterMap_cons, Option.map_none, Option.map_some, if_true, if_false] at ih ⊢ <;>
      simp_all [validRows, dropUnparseable]

theorem timesOf_dropUnparseable (rows : List Sample) :
    timesOf (dropUnparseable rows) = timesOf rows := by
  unfold timesOf
  rw [validRows_dropUnparseable]

theorem labelsOf_dropUnparseable (rows : List Sample) :
    labelsOf (dropUnparseable rows) = labelsOf rows := by
  unfold labelsOf
  rw [validRows_dropUnparseable]

theorem cellRaw_dropUnparseable (rows : List Sample) (agg : AggFunc) (t : ℚ) (l : String) :
    cellRaw (dropUnparseable rows) agg t l = cellRaw rows agg t l := by
  unfold cellRaw
  rw [validRows_dropUnparseable]

theorem ffillCell_dropUnparseable (rows : List Sample) (agg : AggFunc) (t : ℚ) (l : String) :
    ffillCell (dropUnparseable rows) agg t l = ffillCell rows agg t l := by
  unfold ffillCell
  rw [timesOf_dropUnparseable]
  simp only [cellRaw_dropUnparseable]

theorem rateCell_dropUnparseable (rows : List Sample) (agg : AggFunc) (w i : ℕ) (l : String) :
    rateCell (dropUnparseable rows) agg w i l = rateCell rows agg w i l := by
  unfold rateCell
  rw [timesOf_dropUnparseable]
  simp only [ffillCell_dropUnparseable]

theorem keptIndices_dropUnparseable (rows : List Sample) (agg : AggFunc) (w : ℕ) :
    keptIndices (dropUnparseable rows) agg w = keptIndices rows agg w := by
  unfold keptIndices
  rw [timesOf_dropUnparseable, labelsOf_dropUnparseable]
  simp only [rateCell_dropUnparseable]

/-! ### Aggregation of constant groups -/

theorem aggApply_eq_of_forall_eq {agg : AggFunc} {vs : List ℚ} {m v : ℚ}
    (hall : ∀ x ∈ vs, x = m) (h : aggApply agg vs = some v) : v = m := by
  cases agg with
  | last =>
    have hv : v ∈ vs := by
      simp only [aggApply] at h
      obtain ⟨hne, hveq⟩ := List.mem_getLast?_eq_getLast (show v ∈ vs.getLast? from h)
      exact hveq ▸ List.getLast_mem hne
    exact hall v hv
  | mean =>
    simp only [aggApply] at h
    by_cases he : vs.isEmpty
    · rw [if_pos he] at h
      exact absurd h (by simp)
    · rw [if_neg he] at h
      have hrep : vs = List.replicate vs.length m :=
        List.eq_replicate_iff.mpr ⟨rfl, hall⟩
      have hsum : vs.sum = (vs.length : ℚ) * m := by
        conv_lhs => rw [hrep]
        rw [List.sum_replicate, nsmul_eq_mul]
      have hlen : (vs.length : ℚ) ≠ 0 := by
        have : vs ≠ [] := by simpa [List.isEmpty_iff] using he
        have hpos : 0 < vs.length := List.length_pos.mpr this
        exact_mod_cast Nat.pos_iff_ne_zero.mp hpos
      have := h
      rw [Option.some_inj] at this
      rw [← this, hsum, mul_comm, mul_div_assoc, div_self hlen, mul_one]

/-- `rate[valid_labels]` in `cpu_all.py`: selecting a list of column labels yields exactly
those columns in that order, and raises a `KeyError` when any requested label is not a
column of the table. -/
def selectColumns (cols canonical : List String) : Except String (List String) :=
  if canonical.all (fun c => c ∈ cols) then .ok canonical
  else .error "KeyError: not in index"

theorem labelsOf_filterCpuAll_subset (rows : List Sample) :
    ∀ l ∈ labelsOf (filterCpuAll rows), l ∈ cpuAllValidLabels := by
  intro l hl
  rw [mem_labelsOf] at hl
  obtain ⟨p, hp, hpl⟩ := hl
  rw [validRows, List.mem_filterMap] at hp
  obtain ⟨r, hr, hrp⟩ := hp
  rw [filterCpuAll, List.mem_filter] at hr
  have hlab : r.label ∈ cpuAllValidLabels := by simpa using hr.2
  cases ht : r.time with
  | none =>
    rw [ht] at hrp
    simp at hrp
  | some t =>
    rw [ht, Option.map_some', Option.some_inj] at hrp
    rw [← hrp] at hpl
    rw [← hpl]
    exact hlab

/-- C1: every surviving row of a derived rate table lies past the window and has a
strictly positive underlying time delta; a window with zero or negative elapsed seconds
never appears in the table. -/
theorem rateTable_time_delta_pos (rows : List Sample) (agg : AggFunc) (w i : ℕ)
    (h : i ∈ keptIndices rows agg w) :
    w ≤ i ∧ (timesOf rows).getD (i - w) 0 < (timesOf rows).getD i 0 := by
  rw [mem_keptIndices] at h
  obtain ⟨hi, hall⟩ := h
  obtain ⟨l, hl⟩ := labelsOf_exists_of_lt_length hi
  obtain ⟨hw, -, hdt⟩ := rateCell_isSome_elim (hall l hl)
  refine ⟨hw, ?_⟩
  rcases Nat.eq_or_lt_of_le (Nat.sub_le i w) with heq | hlt
  · rw [heq, sub_self] at hdt
    exact absurd rfl hdt
  · exact timesOf_getD_lt rows hlt hi

/-- C1 witness: on the two-label example with window 1, row 1 survives and the theorem
yields a strictly positive time delta for it. -/
theorem rateTable_time_delta_pos_witness :
    1 ≤ 1 ∧ (timesOf exS).getD 0 0 < (timesOf exS).getD 1 0 := by
  have hmem : 1 ∈ keptIndices exS .last 1 := by
    rw [exS_kept]
    simp
  simpa using rateTable_time_delta_pos exS .last 1 1 hmem

/-- C5: reordering the cpu_all rate columns to the canonical order via `rate[valid_labels]`
either succeeds — returning the canonical list, a permutation of the table's columns, so
no data column is dropped — or consistently raises a `KeyError` when a canonical label is
absent from the data. -/
theorem canonical_reorder_is_permutation (rows : List Sample) :
    ((selectColumns (labelsOf (filterCpuAll rows)) cpuAllValidLabels).isOk = true →
      selectColumns (labelsOf (filterCpuAll rows)) cpuAllValidLabels
          = .ok cpuAllValidLabels ∧
        cpuAllValidLabels.Perm (labelsOf (filterCpuAll rows))) ∧
    ((∃ c ∈ cpuAllValidLabels, c ∉ labelsOf (filterCpuAll rows)) →
      selectColumns (labelsOf (filterCpuAll rows)) cpuAllValidLabels
        = .error "KeyError: not in index") := by
  constructor
  · intro hok
    unfold selectColumns at hok ⊢
    by_cases hall : cpuAllValidLabels.all (fun c => c ∈ labelsOf (filterCpuAll rows)) = true
    · rw [if_pos hall]
      refine ⟨rfl, ?_⟩
      refine (List.perm_ext_iff_of_nodup (by decide) (List.nodup_dedup _)).mpr ?_
      intro a
      constructor
      · intro ha
        exact of_decide_eq_true (List.all_eq_true.mp hall a ha)
      · intro ha
        exact labelsOf_filterCpuAll_subset rows a ha
    · rw [if_neg hall] at hok
      simp [Except.isOk, Except.toBool] at hok
  · rintro ⟨c, hc, hnc⟩
    unfold selectColumns
    rw [if_neg]
    intro hall
    rw [List.all_eq_true] at hall
    exact hnc (by simpa using hall c hc)

/-- C6: the aligned table's column set is exactly the set of labels seen among the
family's parseable rows, its row index is strictly ascending (hence at most one row per
timestamp), and a label's forward-filled cell, once present, is present at every later
index timestamp. -/
theorem alignedTable_invariants (rows : List Sample) (agg : AggFunc) :
    (∀ l, l ∈ labelsOf rows ↔ ∃ r ∈ rows, r.label = l ∧ r.time.isSome = true) ∧
    (timesOf rows).Sorted (· < ·) ∧
    (∀ l i j, i ≤ j → j < (timesOf rows).length →
      (ffillCell rows agg ((timesOf rows).getD i 0) l).isSome = true →
      (ffillCell rows agg ((timesOf rows).getD j 0) l).isSome = true) := by
  refine ⟨?_, timesOf_sorted rows, ?_⟩
  · intro l
    rw [mem_labelsOf]
    constructor
    · rintro ⟨p, hp, hpl⟩
      rw [validRows, List.mem_filterMap] at hp
      obtain ⟨r, hr, hrp⟩ := hp
      cases ht : r.time with
      | none =>
        rw [ht] at hrp
        simp at hrp
      | some t =>
        rw [ht, Option.map_some', Option.some_inj] at hrp
        refine ⟨r, hr, ?_, by rw [ht]; rfl⟩
        rw [← hrp] at hpl
        exact hpl
    · rintro ⟨r, hr, hrl, hrt⟩
      obtain ⟨t, ht⟩ := Option.isSome_iff_exists.mp hrt
      exact ⟨(t, r.label, r.value), List.mem_filterMap.mpr ⟨r, hr, by rw [ht]; rfl⟩, hrl⟩
  · intro l i j hij hj hsome
    rw [ffillCell_isSome_iff] at hsome ⊢
    obtain ⟨u, hu, hut, husome⟩ := hsome
    refine ⟨u, hu, le_trans hut ?_, husome⟩
    rcases Nat.eq_or_lt_of_le hij with heq | hlt
    · rw [heq]
    · exact le_of_lt (timesOf_getD_lt rows hlt hj)

/-- C7: `dropna()` removes a rate row as soon as any single column's cell is missing: a
label with no raw observation before index `j` forces every row with index below
`j + w` out of the table, for all labels at once. -/
theorem late_label_drops_whole_rows (rows : List Sample) (agg : AggFunc) (w : ℕ)
    (l : String) (hl : l ∈ labelsOf rows) (j i : ℕ)
    (hfirst : ∀ m, m < j → cellRaw rows agg ((timesOf rows).getD m 0) l = none)
    (hij : i < j + w) : i ∉ keptIndices rows agg w := by
  intro hmem
  rw [mem_keptIndices] at hmem
  obtain ⟨hi, hall⟩ := hmem
  have hsome := hall l hl
  obtain ⟨hw, -, -⟩ := rateCell_isSome_elim hsome
  have hiwlt : i - w < j := by omega
  have hiwlen : i - w < (timesOf rows).length := lt_of_le_of_lt (Nat.sub_le i w) hi
  have hnone : ffillCell rows agg ((timesOf rows).getD (i - w) 0) l = none :=
    ffillCell_getD_eq_none hiwlen (fun m hm => hfirst m (lt_of_le_of_lt hm hiwlt))
  unfold rateCell at hsome
  rw [if_pos ⟨hw, hi⟩, hnone] at hsome
  rcases hf : ffillCell rows agg ((timesOf rows).getD i 0) l with _ | a <;>
    rw [hf] at hsome <;> simp at hsome

/-- C8: a row whose time value failed to parse contributes nothing: removing unparseable
rows changes neither the index, the columns, any cell, any rate cell, nor the surviving
rows of any table; prepending an unparseable row likewise changes nothing. -/
theorem unparseable_rows_never_contribute (rows : List Sample) :
    timesOf (dropUnparseable rows) = timesOf rows ∧
    labelsOf (dropUnparseable rows) = labelsOf rows ∧
    (∀ agg t l, cellRaw (dropUnparseable rows) agg t l = cellRaw rows agg t l) ∧
    (∀ agg w i l, rateCell (dropUnparseable rows) agg w i l = rateCell rows agg w i l) ∧
    (∀ agg w, keptIndices (dropUnparseable rows) agg w = keptIndices rows agg w) ∧
    (∀ r : Sample, validRows ({ r with time := none } :: rows) = validRows rows) :=
  ⟨timesOf_dropUnparseable rows, labelsOf_dropUnparseable rows,
    fun agg t l => cellRaw_dropUnparseable rows agg t l,
    fun agg w i l => rateCell_dropUnparseable rows agg w i l,
    fun agg w => keptIndices_dropUnparseable rows agg w,
    fun r => by simp [validRows, List.filterMap_cons]⟩

/-- C9: shifting every timestamp by a constant offset shifts the table's index by the
same offset while leaving the set of surviving rows and every rate value unchanged. -/
theorem rate_offset_invariance (rows : List Sample) (agg : AggFunc) (w : ℕ) (c : ℚ) :
    timesOf (shiftRows c rows) = (timesOf rows).map (fun t => t + c) ∧
    keptIndices (shiftRows c rows) agg w = keptIndices rows agg w ∧
    (∀ i l, rateCell (shiftRows c rows) agg w i l = rateCell rows agg w i l) :=
  ⟨timesOf_shiftRows c rows, keptIndices_shiftRows c rows agg w,
    fun i l => rateCell_shiftRows c rows agg w i l⟩

/-! ### Concrete inputs for the remaining claims -/

/-- An input with no rows for any of the four metric families. -/
def exOther : List Sample := [⟨some 0, "other", "x", 1⟩]

/-- A duplicated `(timestamp, label)` pair for the cpu_all family. -/
def exDup : List Sample :=
  [⟨some 0, "cpu_all", "user", 0⟩, ⟨some 0, "cpu_all", "user", 2⟩]

/-- One cpu_all sample for each label of the allow-list. -/
def ex8 : List Sample := cpuAllValidLabels.map (fun l => ⟨some 0, "cpu_all", l, 1⟩)

/-- The §8 mixed-label scenario: `"rx"` sampled every tick, `"tx"` every third tick. -/
def exRxTx : List Sample :=
  [⟨some 0, "net", "rx", 10⟩, ⟨some 1, "net", "rx", 11⟩, ⟨some 2, "net", "rx", 12⟩,
   ⟨some 3, "net", "rx", 13⟩, ⟨some 0, "net", "tx", 5⟩, ⟨some 3, "net", "tx", 6⟩]

/-- A family whose label `"b"` is first observed only at the third tick. -/
def exLate : List Sample :=
  [⟨some 0, "m", "a", 0⟩, ⟨some 1, "m", "a", 1⟩, ⟨some 2, "m", "a", 2⟩,
   ⟨some 3, "m", "a", 3⟩, ⟨some 2, "m", "b", 5⟩, ⟨some 3, "m", "b", 6⟩]

/-- A strictly linear counter with slope 2, densely sampled. -/
def exLin : List Sample :=
  [⟨some 0, "m", "a", 0⟩, ⟨some 1, "m", "a", 2⟩, ⟨some 2, "m", "a", 4⟩]

theorem exRxTx_times : timesOf exRxTx = [0, 1, 2, 3] := by
  norm_num [timesOf, validRows, exRxTx, List.filterMap, List.dedup, List.insertionSort,
    List.orderedInsert]

theorem exRxTx_ffill0 :
    ffillCell exRxTx .last ((timesOf exRxTx).getD 0 0) "tx" = some 5 := by
  norm_num +decide [ffillCell, cellRaw, aggApply, timesOf, validRows, exRxTx,
    List.filterMap, List.dedup, List.insertionSort, List.orderedInsert, List.filter,
    List.findSome?, List.getD]

theorem exLate_times : timesOf exLate = [0, 1, 2, 3] := by
  norm_num [timesOf, validRows, exLate, List.filterMap, List.dedup, List.insertionSort,
    List.orderedInsert]

theorem exLate_raw0 : cellRaw exLate .last 0 "b" = none := by
  norm_num +decide [cellRaw, aggApply, validRows, exLate, List.filterMap, List.filter]

theorem exLate_raw1 : cellRaw exLate .last 1 "b" = none := by
  norm_num +decide [cellRaw, aggApply, validRows, exLate, List.filterMap, List.filter]

theorem exLin_times : timesOf exLin = [0, 1, 2] := by
  norm_num [timesOf, validRows, exLin, List.filterMap, List.dedup, List.insertionSort,
    List.orderedInsert]

theorem exLin_raw0 : cellRaw exLin .last 0 "a" = some 0 := by
  norm_num +decide [cellRaw, aggApply, validRows, exLin, List.filterMap, List.filter]

theorem exLin_raw1 : cellRaw exLin .last 1 "a" = some 2 := by
  norm_num +decide [cellRaw, aggApply, validRows, exLin, List.filterMap, List.filter]

theorem exLin_raw2 : cellRaw exLin .last 2 "a" = some 4 := by
  norm_num +decide [cellRaw, aggApply, validRows, exLin, List.filterMap, List.filter]

/-- C5 witness: with every canonical label present in the data, the reorder succeeds and
is a permutation of the table's columns. -/
theorem canonical_reorder_is_permutation_witness :
    selectColumns (labelsOf (filterCpuAll ex8)) cpuAllValidLabels = .ok cpuAllValidLabels ∧
    cpuAllValidLabels.Perm (labelsOf (filterCpuAll ex8)) :=
  (canonical_reorder_is_permutation ex8).1 (by decide)

/-- C6 witness: in the rx/tx scenario the tx cell, present at tick 0, is still present at
the forward-filled ticks 1 and 2. -/
theorem alignedTable_invariants_witness :
    (ffillCell exRxTx .last ((timesOf exRxTx).getD 1 0) "tx").isSome = true ∧
    (ffillCell exRxTx .last ((timesOf exRxTx).getD 2 0) "tx").isSome = true := by
  have h0 : (ffillCell exRxTx .last ((timesOf exRxTx).getD 0 0) "tx").isSome = true := by
    rw [exRxTx_ffill0]
    rfl
  have hlen : 2 < (timesOf exRxTx).length := by
    rw [exRxTx_times]
    simp
  exact ⟨(alignedTable_invariants exRxTx .last).2.2 "tx" 0 1
      (by norm_num) (by rw [exRxTx_times]; simp) h0,
    (alignedTable_invariants exRxTx .last).2.2 "tx" 0 2 (by norm_num) hlen h0⟩

/-- C7 witness: label `"b"` first appears at index 2, so with window 1 the row at index 2
is dropped for all labels even though `"a"` is fully observed. -/
theorem late_label_drops_whole_rows_witness : 2 ∉ keptIndices exLate .last 1 := by
  refine late_label_drops_whole_rows exLate .last 1 "b" (by decide) 2 2 ?_ (by norm_num)
  intro m hm
  interval_cases m
  · rw [exLate_times]
    simpa using exLate_raw0
  · rw [exLate_times]
    simpa using exLate_raw1

/-- C2 counterexample: on an input with no cpu_self rows, `cpu_self.py` does not report
an EmptyInput error; it proceeds and produces an empty rate table. -/
theorem emptyInput_not_reported_by_cpu_self :
    filterName "cpu_self" exOther = [] ∧ cpuSelfRun exOther = .ok [] := by
  constructor <;> rfl

/-- C2 amended: only `cpu_all.py` and `backend_duration.py` report the empty-input error
(message and exit code 1) when their filtered input is empty; `cpu_self.py` and
`network.py` have no emptiness check and always proceed to a table. -/
theorem emptyInput_check_per_script (rows : List Sample) :
    ((filterCpuAll rows).isEmpty = true →
      cpuAllRun rows = .error "Error: Input DataFrame is empty") ∧
    ((filterDuration rows).isEmpty = true →
      durationRun rows = .error "Error: Input DataFrame is empty") ∧
    (cpuSelfRun rows).isOk = true ∧ (networkRun rows).isOk = true := by
  refine ⟨?_, ?_, rfl, rfl⟩
  · intro h
    unfold cpuAllRun
    rw [if_pos h]
  · intro h
    unfold durationRun
    rw [if_pos h]

/-- C2 witness: on the input with no rows of any family, cpu_all and backend_duration
report the error while cpu_self still succeeds. -/
theorem emptyInput_check_per_script_witness :
    cpuAllRun exOther = .error "Error: Input DataFrame is empty" ∧
    durationRun exOther = .error "Error: Input DataFrame is empty" ∧
    (cpuSelfRun exOther).isOk = true :=
  ⟨(emptyInput_check_per_script exOther).1 rfl,
    (emptyInput_check_per_script exOther).2.1 rfl,
    (emptyInput_check_per_script exOther).2.2.1⟩

/-- C4 counterexample: `cpu_all.py` pivots with `aggfunc="mean"`: the duplicated
`(timestamp, label)` samples 0 and 2 collapse to their mean 1, not to the last value 2. -/
theorem cpuAll_duplicates_use_mean :
    cellRaw (filterCpuAll exDup) .mean 0 "user" = some 1 ∧ (1 : ℚ) ≠ 2 := by
  constructor
  · norm_num +decide [cellRaw, aggApply, validRows, filterCpuAll, filterName, exDup,
      List.filterMap, List.filter, cpuAllValidLabels]
  · norm_num

/-- C4 amended: duplicate `(timestamp, label)` pairs collapse with `last` for the
per-process CPU and network families, but with `mean` for the CPU aggregate
(`cpu_all.py`) and for duration. -/
theorem duplicate_aggregation_per_family (v₁ v₂ : ℚ) :
    cellRaw (filterName "cpu_self"
        [⟨some 0, "cpu_self", "p", v₁⟩, ⟨some 0, "cpu_self", "p", v₂⟩]) .last 0 "p"
      = some v₂ ∧
    cellRaw (filterName "network_rx"
        [⟨some 0, "network_rx", "eth0", v₁⟩, ⟨some 0, "network_rx", "eth0", v₂⟩]) .last 0
        "eth0"
      = some v₂ ∧
    cellRaw (filterCpuAll
        [⟨some 0, "cpu_all", "user", v₁⟩, ⟨some 0, "cpu_all", "user", v₂⟩]) .mean 0 "user"
      = some ((v₁ + v₂) / 2) ∧
    cellRaw (filterDuration
        [⟨some 0, "backend_duration", "get", v₁⟩, ⟨some 0, "backend_duration", "get", v₂⟩])
        .mean 0 "get"
      = some ((v₁ + v₂) / 2) := by
  refine ⟨?_, ?_, ?_, ?_⟩ <;>
    norm_num +decide [cellRaw, aggApply, validRows, filterName, filterCpuAll,
      filterDuration, List.filterMap, List.filter, cpuAllValidLabels, durationValidLabels]

theorem ex21_times : timesOf (filterName "cpu_self" ex21) = [0, 1, 2, 3, 4, 5, 6, 7, 8, 9, 10, 11, 12, 13, 14, 15, 16, 17, 18, 19, 20] := by
  norm_num +decide [timesOf, validRows, ex21, filterName, List.filterMap, List.dedup,
    List.insertionSort, List.orderedInsert, List.range, List.range.loop, List.filter]

theorem ex21_valid : validRows (filterName "cpu_self" ex21) = [(0, "user", 0), (1, "user", 1), (2, "user", 2), (3, "user", 3), (4, "user", 4), (5, "user", 5), (6, "user", 6), (7, "user", 7), (8, "user", 8), (9, "user", 9), (10, "user", 10), (11, "user", 11), (12, "user", 12), (13, "user", 13), (14, "user", 14), (15, "user", 15), (16, "user", 16), (17, "user", 17), (18, "user", 18), (19, "user", 19), (20, "user", 20)] := by
  norm_num +decide [validRows, ex21, filterName, List.filterMap, List.filter, List.range,
    List.range.loop]

set_option maxHeartbeats 2000000 in
theorem ex21_rate_values :
    (keptIndices (filterName "cpu_self" ex21) .last 10).map
      (fun i => rateCell (filterName "cpu_self" ex21) .last 10 i "user")
    = List.replicate 11 (some 1) := by
  rw [ex21_kept]
  norm_num +decide [rateCell, ffillCell, cellRaw, aggApply, ex21_times, ex21_valid,
    List.filter, List.findSome?, List.replicate, List.getD]

/-- C3 counterexample: the section 8 scenario (values 0..20 at one-second ticks, window
10) leaves 11 surviving rate rows, not the 10 the claim states. -/
theorem window_scenario_not_ten_rows :
    (keptIndices (filterName "cpu_self" ex21) .last 10).length = 11 ∧
    (keptIndices (filterName "cpu_self" ex21) .last 10).length ≠ 10 := by
  rw [ex21_kept]
  constructor <;> decide

/-- C3 amended: in the section 8 scenario the first valid rate row is at tick 10, every
rate value is exactly 1, and 21 − 10 = 11 rows survive. -/
theorem window_scenario_amended :
    cpuSelfRun ex21 = .ok [10, 11, 12, 13, 14, 15, 16, 17, 18, 19, 20] ∧
    (timesOf (filterName "cpu_self" ex21)).getD 10 0 = 10 ∧
    (keptIndices (filterName "cpu_self" ex21) .last 10).map
        (fun i => rateCell (filterName "cpu_self" ex21) .last 10 i "user")
      = List.replicate 11 (some 1) ∧
    (keptIndices (filterName "cpu_self" ex21) .last 10).length = 11 := by
  refine ⟨?_, ?_, ex21_rate_values, ?_⟩
  · unfold cpuSelfRun
    rw [ex21_kept]
  · rw [ex21_times]
    norm_num [List.getD]
  · rw [ex21_kept]
    decide

theorem cellRaw_linear {rows : List Sample} {agg : AggFunc} {k t : ℚ} {l : String} {v : ℚ}
    (hlin : ∀ r ∈ rows, ∀ u, r.time = some u → r.value = k * u)
    (h : cellRaw rows agg t l = some v) : v = k * t := by
  unfold cellRaw at h
  refine aggApply_eq_of_forall_eq ?_ h
  intro x hx
  rw [List.mem_map] at hx
  obtain ⟨p, hp, hpx⟩ := hx
  rw [List.mem_filter] at hp
  obtain ⟨hpv, hpc⟩ := hp
  have hcond : p.1 = t ∧ p.2.1 = l := by simpa using hpc
  rw [validRows, List.mem_filterMap] at hpv
  obtain ⟨r, hr, hrp⟩ := hpv
  cases ht : r.time with
  | none =>
    rw [ht] at hrp
    simp at hrp
  | some u =>
    rw [ht, Option.map_some', Option.some_inj] at hrp
    have hv : r.value = k * u := hlin r hr u ht
    rw [← hrp] at hpx hcond
    rw [← hpx]
    have hut : u = t := hcond.1
    rw [← hut]
    exact hv

/-- C10 amended: for a strictly linear counter `value = k * t`, if the label has a raw
observation at every index timestamp (so forward fill never bridges a gap), every rate
cell past a positive window equals exactly `k`. -/
theorem linear_counter_rate_eq_slope (rows : List Sample) (agg : AggFunc) (w i : ℕ)
    (l : String) (k : ℚ) (hw : 0 < w) (hwi : w ≤ i) (hi : i < (timesOf rows).length)
    (hlin : ∀ r ∈ rows, ∀ u, r.time = some u → r.value = k * u)
    (hdense : ∀ t ∈ timesOf rows, (cellRaw rows agg t l).isSome = true) :
    rateCell rows agg w i l = some k := by
  have hiw : i - w < (timesOf rows).length := lt_of_le_of_lt (Nat.sub_le i w) hi
  have hti : (timesOf rows).getD i 0 ∈ timesOf rows := getD_mem_of_lt hi
  have htiw : (timesOf rows).getD (i - w) 0 ∈ timesOf rows := getD_mem_of_lt hiw
  have hsi := hdense _ hti
  have hsiw := hdense _ htiw
  have hfi := ffillCell_getD_eq_cellRaw hi hsi
  have hfiw := ffillCell_getD_eq_cellRaw hiw hsiw
  obtain ⟨a, ha⟩ := Option.isSome_iff_exists.mp hsi
  obtain ⟨b, hb⟩ := Option.isSome_iff_exists.mp hsiw
  have hak : a = k * (timesOf rows).getD i 0 := cellRaw_linear hlin ha
  have hbk : b = k * (timesOf rows).getD (i - w) 0 := cellRaw_linear hlin hb
  have hlt : (timesOf rows).getD (i - w) 0 < (timesOf rows).getD i 0 :=
    timesOf_getD_lt rows (by omega) hi
  have hdt : (timesOf rows).getD i 0 - (timesOf rows).getD (i - w) 0 ≠ 0 :=
    sub_ne_zero_of_ne (ne_of_gt hlt)
  have hred : rateCell rows agg w i l
      = some ((a - b) / ((timesOf rows).getD i 0 - (timesOf rows).getD (i - w) 0)) := by
    unfold rateCell
    rw [if_pos ⟨hwi, hi⟩, hfi, hfiw, ha, hb]
    show (if (timesOf rows).getD i 0 - (timesOf rows).getD (i - w) 0 = 0 then none
        else some ((a - b) / ((timesOf rows).getD i 0 - (timesOf rows).getD (i - w) 0)))
      = some ((a - b) / ((timesOf rows).getD i 0 - (timesOf rows).getD (i - w) 0))
    rw [if_neg hdt]
  rw [hred, hak, hbk, ← mul_sub, mul_div_assoc, div_self hdt, mul_one]

/-- C10 witness: on the dense slope 2 counter the rate at row 1 is exactly 2. -/
theorem linear_counter_rate_eq_slope_witness : rateCell exLin .last 1 1 "a" = some 2 := by
  refine linear_counter_rate_eq_slope exLin .last 1 1 "a" 2 (by norm_num) (by norm_num)
    (by rw [exLin_times]; simp) ?_ ?_
  · intro r hr u hu
    fin_cases hr <;> simp_all <;> norm_num [← hu]
  · intro t ht
    rw [exLin_times] at ht
    fin_cases ht
    · rw [exLin_raw0]
      rfl
    · rw [exLin_raw1]
      rfl
    · rw [exLin_raw2]
      rfl

/-- C10 counterexample: `exS` is strictly linear with slope 1 (certified by the value
map), the window 1 is positive, yet the surviving row 2 of column `"b"` has rate 2,
because forward fill bridged the gap at tick 1. -/
theorem linear_counter_rate_not_slope :
    exS.map (fun r => some r.value) = exS.map (fun r => r.time.map (fun u => 1 * u)) ∧
    2 ∈ keptIndices exS .last 1 ∧
    rateCell exS .last 1 2 "b" = some 2 ∧ (2 : ℚ) ≠ 1 := by
  refine ⟨?_, ?_, exS_rate2b, by norm_num⟩
  · norm_num [exS]
  · rw [exS_kept]
    simp
